import Mathlib

/-!
Verification development for the bigint modulus construction module
(`arithmetic/bigint/modulus.rs`): validated Montgomery modulus
construction, its precomputed constants (`n0`, `oneRR`, `len_bits`),
its byte encoding, cloning, and the `to_elem` embedding into a larger
ring.

The embedding fixes the 64-bit build of the library: `LIMB_BITS = 64`
and `N0::LIMBS_USED = 1`, so the Montgomery radix used for `N0` is
`r = 2^64`.  Limb arrays are `List Nat`, least-significant limb first,
with the `u64` range condition `l < 2^64` carried as an explicit
hypothesis where it matters.  Byte strings are `List Nat` with the
`u8` range condition `b < 256` carried as an explicit hypothesis where
it matters.
-/

deriving instance DecidableEq for Except

namespace BigintModulus

/-- Number of bits in one limb (64-bit build of the library). -/
def LIMB_BITS : Nat := 64

/-- Minimum number of limbs accepted for a modulus, from the source:
the x86 implementation of the multiplication kernel requires at least
4 limbs. -/
def MODULUS_MIN_LIMBS : Nat := 4

/-- Modelled from the spec: `BIGINT_MODULUS_MAX_LIMBS` is defined in the
parent bigint module, which is outside the given source file.  The spec
only requires a fixed maximum supported limb count; it is fixed here to
8192 bits worth of limbs, the library's maximum. -/
def BIGINT_MODULUS_MAX_LIMBS : Nat := 8192 / LIMB_BITS

/-- Maximum number of limbs accepted for a modulus. -/
def MODULUS_MAX_LIMBS : Nat := BIGINT_MODULUS_MAX_LIMBS

/-- Integer value of a least-significant-first limb array. -/
def limbsValue : List Nat → Nat
  | [] => 0
  | l :: ls => l + 2 ^ 64 * limbsValue ls

/-- Integer value of a big-endian byte string. -/
def beBytesToNat (bytes : List Nat) : Nat :=
  bytes.foldl (fun acc b => acc * 256 + b) 0

/-- Drop the leading zero bytes of a big-endian byte string. -/
def stripLeadingZeros (bytes : List Nat) : List Nat :=
  bytes.dropWhile (fun b => b == 0)

/-- Least-significant-first limb array of width `k` representing `v`
(truncated modulo `2^(64*k)`). -/
def natToLimbsLE : Nat → Nat → List Nat
  | 0, _ => []
  | k + 1, v => v % 2 ^ 64 :: natToLimbsLE k (v / 2 ^ 64)

/-- Little-endian byte list of width `k` representing `v`. -/
def natToLEBytes : Nat → Nat → List Nat
  | 0, _ => []
  | k + 1, v => v % 256 :: natToLEBytes k (v / 256)

/-- Big-endian byte list of width `k` representing `v`. -/
def natToBEBytes (k v : Nat) : List Nat :=
  (natToLEBytes k v).reverse

/-- Integer value of a little-endian byte list (proof helper relating
big-endian byte strings to their reversals). -/
def leBytesToNat : List Nat → Nat
  | [] => 0
  | b :: bs => b + 256 * leBytesToNat bs

/-- Modelled from the spec: `limb::limbs_are_even_constant_time` from the
limb module (outside the given source file), the constant-time parity
test.  `true` plays the role of a `LimbMask` other than `LimbMask::False`,
i.e. the value is even. -/
def limbs_are_even_constant_time (limbs : List Nat) : Bool :=
  decide (limbsValue limbs % 2 = 0)

/-- Modelled from the spec: `limb::limbs_less_than_limb_constant_time`
from the limb module (outside the given source file), the constant-time
"value < small constant" test. -/
def limbs_less_than_limb_constant_time (limbs : List Nat) (b : Nat) : Bool :=
  decide (limbsValue limbs < b)

/-- Fuel-driven binary bit-length scan; with fuel `64` it computes the
minimal number of bits of a limb `v < 2^64`. -/
def bitLenAux : Nat → Nat → Nat
  | 0, _ => 0
  | fuel + 1, v => if v = 0 then 0 else bitLenAux fuel (v / 2) + 1

/-- Modelled from the spec: `limb::limbs_minimal_bits` from the limb
module (outside the given source file), the minimal-bit-length scan of a
limb array: 64 bits for every limb below the most significant nonzero
limb, plus the bit length of that limb. -/
def limbs_minimal_bits (limbs : List Nat) : Nat :=
  match limbs.reverse.dropWhile (fun l => l == 0) with
  | [] => 0
  | h :: t => 64 * t.length + bitLenAux 64 h

/-- One step of the inversion method for inverting an odd number modulo a
power of two: if `v * x ≡ 1 (mod 2^k)` then
`v * (x * (2 - v * x)) ≡ 1 (mod 2^(2*k))`, doubling the number of correct
bits. -/
def newtonStep (v x : Int) : Int := x * (2 - v * x)

/-- Iterated doubling steps, starting from `v` itself (an odd `v` is its
own inverse modulo `2^3`). -/
def newtonInvIter (v : Int) : Nat → Int
  | 0 => v
  | k + 1 => newtonStep v (newtonInvIter v k)

/-- Modelled from the spec: `bn_neg_inv_mod_r_u64` is an external
low-level routine (outside the given source file); the spec describes it
as the negative modular inverse of its argument modulo `r = 2^64`,
computed by an extended-Euclidean-style method for power-of-two moduli in
which each step doubles the number of correct bits.  Six doubling steps
give at least `3 * 2^6 = 192 ≥ 64` correct bits. -/
def bn_neg_inv_mod_r_u64 (n_mod_r : Nat) : Nat :=
  ((- newtonInvIter (n_mod_r : Int) 6) % (2 : Int) ^ 64).toNat

/-- Modelled from the spec: the construction-time error taxonomy of
`error::KeyRejected` (outside the given source file); only the three
variants reachable from modulus construction are modelled. -/
inductive KeyRejected where
  | too_large
  | unexpected_error
  | invalid_component
  deriving DecidableEq

/-- Modelled from the spec: `One::newRR` (outside the given source file)
computes `R^2 mod n`, the Montgomery encoding of 1 in doubly-encoded
(`RR`) form, by a repeated-doubling procedure relative to the radix,
where `R = 2^(LIMB_BITS * numLimbs)` is the full Montgomery radix of the
modulus.  The result is stored as a limb array of the modulus width. -/
def One.newRR (numLimbs : Nat) (n : Nat) : List Nat :=
  natToLimbsLE numLimbs ((fun a => 2 * a % n)^[2 * (64 * numLimbs)] (1 % n))

/-- The validated modulus together with its precomputed constants, from
the source's `OwnedModulusWithOne<M>`.  The compile-time tag `M`, the
`PhantomData` encoding tags and the opaque CPU-feature token have no
runtime content and are dropped by the embedding; `n0` is the single
limb used on the 64-bit build. -/
structure OwnedModulusWithOne where
  limbs : List Nat
  n0 : Nat
  oneRR : List Nat
  len_bits : Nat
  deriving DecidableEq

/-- The borrowed view `Modulus<'_, M>` of the source: the limb slice, the
`N0` constant and the bit length (the CPU-feature token is dropped). -/
structure Modulus where
  limbs : List Nat
  n0 : Nat
  len_bits : Nat
  deriving DecidableEq

/-- The common fallible constructor `OwnedModulusWithOne::from_boxed_limbs`
from the source: the four validation checks in source order, then the
derivation of `n0` from the lowest limb, the bit length, and `oneRR`. -/
def from_boxed_limbs (n : List Nat) : Except KeyRejected OwnedModulusWithOne :=
  if n.length > MODULUS_MAX_LIMBS then
    Except.error KeyRejected.too_large
  else if n.length < MODULUS_MIN_LIMBS then
    Except.error KeyRejected.unexpected_error
  else if limbs_are_even_constant_time n then
    Except.error KeyRejected.invalid_component
  else if limbs_less_than_limb_constant_time n 3 then
    Except.error KeyRejected.unexpected_error
  else
    let n0 := bn_neg_inv_mod_r_u64 (n.headD 0)
    let len_bits := limbs_minimal_bits n
    let oneRR := One.newRR n.length (limbsValue n)
    Except.ok { limbs := n, n0 := n0, oneRR := oneRR, len_bits := len_bits }

/-- Modelled from the spec:
`BoxedLimbs::positive_minimal_width_from_be_bytes` (outside the given
source file) strips leading zero bytes and builds a minimal-width limb
array from a big-endian byte string. -/
def positive_minimal_width_from_be_bytes (input : List Nat) : List Nat :=
  natToLimbsLE (((stripLeadingZeros input).length + 7) / 8)
    (beBytesToNat (stripLeadingZeros input))

/-- `OwnedModulusWithOne::from_be_bytes` from the source. -/
def from_be_bytes (input : List Nat) : Except KeyRejected OwnedModulusWithOne :=
  from_boxed_limbs (positive_minimal_width_from_be_bytes input)

/-- Modelled from the spec: `Nonnegative` (outside the given source file)
is an internal non-negative integer already in limb form. -/
structure Nonnegative where
  limbs : List Nat
  deriving DecidableEq

/-- `OwnedModulusWithOne::from_nonnegative` from the source: the limbs
are taken over unchecked (`BoxedLimbs::new_unchecked`). -/
def from_nonnegative (n : Nonnegative) : Except KeyRejected OwnedModulusWithOne :=
  from_boxed_limbs n.limbs

/-- Modelled from the spec: `BoxedLimbs::minimal_width_from_unpadded`
(outside the given source file) strips the leading (most-significant)
zero limbs, i.e. the trailing zeros of the least-significant-first
list. -/
def minimal_width_from_unpadded (limbs : List Nat) : List Nat :=
  (limbs.reverse.dropWhile (fun l => l == 0)).reverse

/-- `OwnedModulusWithOne::from_elem` from the source: an `Elem` of a
strictly larger modulus `L` is reduced to minimal width and validated.
The `SlightlySmallerModulus` bound is compile-time only. -/
def from_elem (elem : List Nat) : Except KeyRejected OwnedModulusWithOne :=
  from_boxed_limbs (minimal_width_from_unpadded elem)

/-- `OwnedModulusWithOne::modulus` from the source: the borrowed view. -/
def modulus (self : OwnedModulusWithOne) : Modulus :=
  { limbs := self.limbs, n0 := self.n0, len_bits := self.len_bits }

/-- `OwnedModulusWithOne::to_elem` from the source: a zero limb array of
the larger modulus's width whose low limbs are overwritten with `self`'s
limbs.  The `SmallerModulus` bound is compile-time only; it guarantees
`self.limbs.length ≤ l.limbs.length`, which appears as a hypothesis in
the theorems. -/
def to_elem (self : OwnedModulusWithOne) (l : Modulus) : List Nat :=
  self.limbs ++ List.replicate (l.limbs.length - self.limbs.length) 0

/-- `Clone for OwnedModulusWithOne` from the source: a field-by-field
clone.  The `M: PublicModulus` bound is compile-time only. -/
def clone (self : OwnedModulusWithOne) : OwnedModulusWithOne :=
  { limbs := self.limbs, n0 := self.n0, oneRR := self.oneRR,
    len_bits := self.len_bits }

/-- Modelled from the spec: `limb::unstripped_be_bytes` (outside the
given source file) serializes a limb array to big-endian bytes at its
full width. -/
def unstripped_be_bytes (limbs : List Nat) : List Nat :=
  natToBEBytes (limbs.length * 8) (limbsValue limbs)

/-- `OwnedModulusWithOne::be_bytes` from the source: the full-width
big-endian bytes with leading zeros stripped
(`LeadingZerosStripped::new`). -/
def be_bytes (self : OwnedModulusWithOne) : List Nat :=
  stripLeadingZeros (unstripped_be_bytes self.limbs)

/-! ## Limb array value lemmas -/

theorem natToLimbsLE_length (k v : Nat) : (natToLimbsLE k v).length = k := by
  induction k generalizing v with
  | zero => rfl
  | succ k ih => simp [natToLimbsLE, ih]

theorem limbsValue_natToLimbsLE (k v : Nat) :
    limbsValue (natToLimbsLE k v) = v % 2 ^ (64 * k) := by
  induction k generalizing v with
  | zero => simp [natToLimbsLE, limbsValue, Nat.mod_one]
  | succ k ih =>
    rw [natToLimbsLE, limbsValue, ih]
    rw [show 64 * (k + 1) = 64 + 64 * k by ring, pow_add]
    exact Nat.mod_mul.symm

theorem limbsValue_lt (ls : List Nat) (h : ∀ l ∈ ls, l < 2 ^ 64) :
    limbsValue ls < 2 ^ (64 * ls.length) := by
  induction ls with
  | nil => simp [limbsValue]
  | cons a t ih =>
    have ha : a < 2 ^ 64 := h a (by simp)
    have ht : limbsValue t < 2 ^ (64 * t.length) :=
      ih (fun l hl => h l (by simp [hl]))
    rw [limbsValue, show (64 : Nat) * (a :: t).length = 64 + 64 * t.length by
      simp [List.length_cons]; ring, pow_add]
    calc a + 2 ^ 64 * limbsValue t
        < 2 ^ 64 * (limbsValue t + 1) := by omega
      _ ≤ 2 ^ 64 * 2 ^ (64 * t.length) := Nat.mul_le_mul_left _ (by omega)

theorem limbsValue_mod_two (k v : Nat) (hk : 0 < k) :
    limbsValue (natToLimbsLE k v) % 2 = v % 2 := by
  rw [limbsValue_natToLimbsLE]
  exact Nat.mod_mod_of_dvd v (dvd_pow_self 2 (by omega))

/-! ## Big-endian byte value lemmas -/

theorem beBytes_foldl (acc : Nat) (l : List Nat) :
    List.foldl (fun a x => a * 256 + x) acc l =
      acc * 256 ^ l.length + beBytesToNat l := by
  induction l generalizing acc with
  | nil => simp [beBytesToNat]
  | cons b t ih =>
    have hb : beBytesToNat (b :: t) = b * 256 ^ t.length + beBytesToNat t := by
      rw [beBytesToNat, List.foldl_cons, ih (0 * 256 + b)]
      ring_nf
    rw [List.foldl_cons, ih (acc * 256 + b), hb, List.length_cons]
    ring

theorem beBytesToNat_cons (b : Nat) (t : List Nat) :
    beBytesToNat (b :: t) = b * 256 ^ t.length + beBytesToNat t := by
  rw [beBytesToNat, List.foldl_cons, beBytes_foldl (0 * 256 + b) t]
  ring_nf

theorem beBytesToNat_lt (l : List Nat) (h : ∀ b ∈ l, b < 256) :
    beBytesToNat l < 256 ^ l.length := by
  induction l with
  | nil => simp [beBytesToNat]
  | cons b t ih =>
    have hb : b < 256 := h b (by simp)
    have ht : beBytesToNat t < 256 ^ t.length :=
      ih (fun x hx => h x (by simp [hx]))
    rw [beBytesToNat_cons, List.length_cons, pow_succ]
    have h1 : b * 256 ^ t.length ≤ 255 * 256 ^ t.length :=
      Nat.mul_le_mul_right _ (by omega)
    omega

theorem beBytesToNat_ge (b : Nat) (t : List Nat) (hb : b ≠ 0) :
    256 ^ t.length ≤ beBytesToNat (b :: t) := by
  rw [beBytesToNat_cons]
  have : 1 * 256 ^ t.length ≤ b * 256 ^ t.length :=
    Nat.mul_le_mul_right _ (by omega)
  omega

theorem beBytesToNat_strip (l : List Nat) :
    beBytesToNat (stripLeadingZeros l) = beBytesToNat l := by
  induction l with
  | nil => rfl
  | cons b t ih =>
    rw [stripLeadingZeros, List.dropWhile_cons]
    by_cases hb : b = 0
    · subst hb
      simp only [beq_self_eq_true, if_pos]
      rw [← stripLeadingZeros, ih, beBytesToNat_cons]
      omega
    · simp [hb]

theorem stripLeadingZeros_head_ne (l : List Nat) (a : Nat) (t : List Nat)
    (h : stripLeadingZeros l = a :: t) : a ≠ 0 := by
  induction l with
  | nil => simp [stripLeadingZeros] at h
  | cons b s ih =>
    rw [stripLeadingZeros, List.dropWhile_cons] at h
    by_cases hb : b = 0
    · subst hb
      simp only [beq_self_eq_true, if_pos] at h
      exact ih h
    · simp only [beq_iff_eq, hb, if_false] at h
      injection h with h1 h2
      rw [← h1]
      exact hb

theorem stripLeadingZeros_of_head_ne (a : Nat) (t : List Nat) (ha : a ≠ 0) :
    stripLeadingZeros (a :: t) = a :: t := by
  rw [stripLeadingZeros, List.dropWhile_cons]
  simp [ha]

/-! ## Correctness of the negative-inverse derivation -/

theorem newtonStep_dvd (v x m : Int) (h : m ∣ v * x - 1) :
    m ^ 2 ∣ v * newtonStep v x - 1 := by
  obtain ⟨c, hc⟩ := h
  refine ⟨-c ^ 2, ?_⟩
  have h2 : v * newtonStep v x - 1 = -((v * x - 1) ^ 2) := by
    rw [newtonStep]; ring
  rw [h2, hc]; ring

theorem odd_sq_sub_one (v : Nat) (hv : v % 2 = 1) :
    (8 : Int) ∣ (v : Int) * v - 1 := by
  obtain ⟨t, ht⟩ : ∃ t, v = 2 * t + 1 := ⟨v / 2, by omega⟩
  subst ht
  obtain ⟨u, hu⟩ := Int.even_mul_succ_self (t : Int)
  refine ⟨u, ?_⟩
  push_cast
  have h4 : ((2 : Int) * t + 1) * (2 * t + 1) - 1 = 4 * (t * (t + 1)) := by ring
  rw [h4, hu]; ring

theorem newtonInvIter_dvd (v : Nat) (hv : v % 2 = 1) (k : Nat) :
    (2 : Int) ^ (3 * 2 ^ k) ∣ (v : Int) * newtonInvIter v k - 1 := by
  induction k with
  | zero =>
    have h3 : (3 : Nat) * 2 ^ 0 = 3 := by norm_num
    rw [h3, newtonInvIter]
    have h8 : ((2 : Int) ^ 3) = 8 := by norm_num
    rw [h8]
    exact odd_sq_sub_one v hv
  | succ k ih =>
    have h := newtonStep_dvd (v : Int) (newtonInvIter (v : Int) k) _ ih
    have hp : ((2 : Int) ^ (3 * 2 ^ k)) ^ 2 = 2 ^ (3 * 2 ^ (k + 1)) := by
      rw [← pow_mul]
      congr 1
      ring
    rw [newtonInvIter]
    rw [hp] at h
    exact h

theorem bn_neg_inv_mod_r_u64_correct (v : Nat) (hv : v % 2 = 1) :
    (v * bn_neg_inv_mod_r_u64 v + 1) % 2 ^ 64 = 0 := by
  have h192 := newtonInvIter_dvd v hv 6
  have h64 : (2 : Int) ^ 64 ∣ (v : Int) * newtonInvIter (v : Int) 6 - 1 :=
    dvd_trans (pow_dvd_pow 2 (by norm_num)) h192
  have hmod : (bn_neg_inv_mod_r_u64 v : Int) =
      (- newtonInvIter (v : Int) 6) % 2 ^ 64 := by
    rw [bn_neg_inv_mod_r_u64]
    exact Int.toNat_of_nonneg (Int.emod_nonneg _ (by norm_num))
  have h1 : ((- newtonInvIter (v : Int) 6) % 2 ^ 64) ≡
      - newtonInvIter (v : Int) 6 [ZMOD (2 : Int) ^ 64] :=
    Int.emod_emod_of_dvd _ dvd_rfl
  have h2 : (v : Int) * ((- newtonInvIter (v : Int) 6) % 2 ^ 64) + 1 ≡
      (v : Int) * (- newtonInvIter (v : Int) 6) + 1 [ZMOD (2 : Int) ^ 64] :=
    (h1.mul_left (v : Int)).add_right 1
  have h3 : (v : Int) * (- newtonInvIter (v : Int) 6) + 1 =
      -((v : Int) * newtonInvIter (v : Int) 6 - 1) := by ring
  have h4 : (v : Int) * (- newtonInvIter (v : Int) 6) + 1 ≡
      0 [ZMOD (2 : Int) ^ 64] := by
    rw [h3]
    exact Int.modEq_zero_iff_dvd.mpr (dvd_neg.mpr h64)
  have h5 : (v : Int) * (bn_neg_inv_mod_r_u64 v : Int) + 1 ≡
      0 [ZMOD (2 : Int) ^ 64] := by
    rw [hmod]
    exact h2.trans h4
  have h6 : (2 : Int) ^ 64 ∣ ((v * bn_neg_inv_mod_r_u64 v + 1 : Nat) : Int) := by
    have := Int.modEq_zero_iff_dvd.mp h5
    push_cast
    exact this
  have h7 : (2 ^ 64 : Nat) ∣ v * bn_neg_inv_mod_r_u64 v + 1 := by
    have := h6
    rw [show ((2 : Int) ^ 64) = ((2 ^ 64 : Nat) : Int) by push_cast] at this
    exact_mod_cast this
  omega

/-! ## Case analysis of `from_boxed_limbs` -/

theorem from_boxed_limbs_ok (n : List Nat) (m : OwnedModulusWithOne)
    (h : from_boxed_limbs n = Except.ok m) :
    m.limbs = n ∧
    MODULUS_MIN_LIMBS ≤ n.length ∧ n.length ≤ MODULUS_MAX_LIMBS ∧
    limbsValue n % 2 = 1 ∧ 3 ≤ limbsValue n ∧
    m.n0 = bn_neg_inv_mod_r_u64 (n.headD 0) ∧
    m.oneRR = One.newRR n.length (limbsValue n) ∧
    m.len_bits = limbs_minimal_bits n := by
  rw [from_boxed_limbs] at h
  split_ifs at h with h1 h2 h3 h4
  simp only [limbs_are_even_constant_time, decide_eq_true_eq] at h3
  simp only [limbs_less_than_limb_constant_time, decide_eq_true_eq] at h4
  injection h with h5
  subst h5
  refine ⟨rfl, by omega, by omega, by omega, by omega, rfl, rfl, rfl⟩

theorem from_boxed_limbs_ok_of (n : List Nat)
    (h1 : n.length ≤ MODULUS_MAX_LIMBS) (h2 : MODULUS_MIN_LIMBS ≤ n.length)
    (h3 : limbsValue n % 2 = 1) (h4 : 3 ≤ limbsValue n) :
    from_boxed_limbs n = Except.ok
      { limbs := n, n0 := bn_neg_inv_mod_r_u64 (n.headD 0),
        oneRR := One.newRR n.length (limbsValue n),
        len_bits := limbs_minimal_bits n } := by
  rw [from_boxed_limbs]
  rw [if_neg (by omega)]
  rw [if_neg (by omega)]
  rw [if_neg (by simp only [limbs_are_even_constant_time,
    decide_eq_true_eq]; omega)]
  rw [if_neg (by simp only [limbs_less_than_limb_constant_time,
    decide_eq_true_eq]; omega)]

theorem from_boxed_limbs_too_large (n : List Nat)
    (h : MODULUS_MAX_LIMBS < n.length) :
    from_boxed_limbs n = Except.error KeyRejected.too_large := by
  rw [from_boxed_limbs, if_pos (by omega)]

theorem from_boxed_limbs_too_small (n : List Nat)
    (h1 : n.length ≤ MODULUS_MAX_LIMBS) (h2 : n.length < MODULUS_MIN_LIMBS) :
    from_boxed_limbs n = Except.error KeyRejected.unexpected_error := by
  rw [from_boxed_limbs, if_neg (by omega), if_pos (by omega)]

theorem from_boxed_limbs_even (n : List Nat)
    (h1 : n.length ≤ MODULUS_MAX_LIMBS) (h2 : MODULUS_MIN_LIMBS ≤ n.length)
    (h3 : limbsValue n % 2 = 0) :
    from_boxed_limbs n = Except.error KeyRejected.invalid_component := by
  rw [from_boxed_limbs, if_neg (by omega), if_neg (by omega)]
  rw [if_pos (by simp only [limbs_are_even_constant_time,
    decide_eq_true_eq]; omega)]

/-! ## Encoding and re-encoding lemmas -/

theorem natToLEBytes_zero (k : Nat) : natToLEBytes k 0 = List.replicate k 0 := by
  induction k with
  | zero => rfl
  | succ k ih => simp [natToLEBytes, ih, List.replicate_succ]

theorem natToLEBytes_encode (t : List Nat) (p : Nat) (h : ∀ b ∈ t, b < 256) :
    natToLEBytes (t.length + p) (leBytesToNat t) = t ++ List.replicate p 0 := by
  induction t with
  | nil => simpa [leBytesToNat] using natToLEBytes_zero p
  | cons b s ih =>
    have hb : b < 256 := h b (by simp)
    have hs : ∀ x ∈ s, x < 256 := fun x hx => h x (by simp [hx])
    have hlen : (b :: s).length + p = (s.length + p) + 1 := by
      simp [List.length_cons]; ring
    rw [hlen, natToLEBytes, leBytesToNat]
    have hmod : (b + 256 * leBytesToNat s) % 256 = b := by omega
    have hdiv : (b + 256 * leBytesToNat s) / 256 = leBytesToNat s := by omega
    rw [hmod, hdiv, ih hs, List.cons_append]

theorem beBytesToNat_reverse (t : List Nat) :
    beBytesToNat t.reverse = leBytesToNat t := by
  induction t with
  | nil => rfl
  | cons b s ih =>
    rw [List.reverse_cons, beBytesToNat, List.foldl_append]
    rw [show List.foldl (fun acc x => acc * 256 + x) 0 s.reverse =
      beBytesToNat s.reverse from rfl]
    rw [ih, List.foldl_cons, List.foldl_nil, leBytesToNat]
    ring

theorem natToBEBytes_encode (s : List Nat) (p : Nat) (h : ∀ b ∈ s, b < 256) :
    natToBEBytes (s.length + p) (beBytesToNat s) = List.replicate p 0 ++ s := by
  rw [natToBEBytes]
  have h1 : beBytesToNat s = leBytesToNat s.reverse := by
    rw [← beBytesToNat_reverse s.reverse, List.reverse_reverse]
  have h2 : s.length + p = s.reverse.length + p := by simp
  rw [h1, h2, natToLEBytes_encode s.reverse p
    (fun x hx => h x (List.mem_reverse.mp hx))]
  rw [List.reverse_append, List.reverse_reverse, List.reverse_replicate]

theorem stripLeadingZeros_replicate_append (p : Nat) (s : List Nat) :
    stripLeadingZeros (List.replicate p 0 ++ s) = stripLeadingZeros s := by
  induction p with
  | zero => simp
  | succ p ih =>
    rw [List.replicate_succ, List.cons_append, stripLeadingZeros,
      List.dropWhile_cons]
    simp only [beq_self_eq_true, if_true]
    exact ih

/-! ## Value of `One.newRR` -/

theorem doubleIter_eq (n : Nat) (k : Nat) :
    (fun a => 2 * a % n)^[k] (1 % n) = 2 ^ k % n := by
  induction k with
  | zero => simp
  | succ k ih =>
    rw [Function.iterate_succ_apply', ih]
    show 2 * (2 ^ k % n) % n = 2 ^ (k + 1) % n
    calc 2 * (2 ^ k % n) % n
        = 2 % n * (2 ^ k % n % n) % n := by rw [Nat.mul_mod]
      _ = 2 % n * (2 ^ k % n) % n := by rw [Nat.mod_mod_of_dvd _ dvd_rfl]
      _ = 2 * 2 ^ k % n := by rw [← Nat.mul_mod]
      _ = 2 ^ (k + 1) % n := by rw [← pow_succ']

theorem One_newRR_value (numLimbs n : Nat) (hn : 0 < n)
    (hle : n ≤ 2 ^ (64 * numLimbs)) :
    limbsValue (One.newRR numLimbs n) = (2 ^ (64 * numLimbs)) ^ 2 % n := by
  rw [One.newRR, doubleIter_eq n, limbsValue_natToLimbsLE]
  have h1 : 2 ^ (2 * (64 * numLimbs)) % n < 2 ^ (64 * numLimbs) :=
    lt_of_lt_of_le (Nat.mod_lt _ hn) hle
  rw [Nat.mod_eq_of_lt h1]
  congr 1
  rw [← pow_mul]
  congr 1
  ring

/-! ## Append-zero limb lemmas -/

theorem limbsValue_replicate_zero (k : Nat) :
    limbsValue (List.replicate k 0) = 0 := by
  induction k with
  | zero => rfl
  | succ k ih => simp [List.replicate_succ, limbsValue, ih]

theorem limbsValue_append_zeros (xs : List Nat) (k : Nat) :
    limbsValue (xs ++ List.replicate k 0) = limbsValue xs := by
  induction xs with
  | nil => simpa using limbsValue_replicate_zero k
  | cons a t ih => simp [limbsValue, List.cons_append, ih]

/-! ## Claim theorems -/

set_option maxRecDepth 100000

/-- Claim C1: every `OwnedModulusWithOne` successfully constructed through
any of the three entry points (`from_be_bytes`, `from_nonnegative`,
`from_elem`) has a limb count within
`[MODULUS_MIN_LIMBS, MODULUS_MAX_LIMBS]`, represents an odd integer, and
represents an integer `≥ 3`. -/
theorem C1_constructed_modulus_invariants
    (b : List Nat) (nn : Nonnegative) (e : List Nat) (m : OwnedModulusWithOne)
    (h : from_be_bytes b = Except.ok m ∨ from_nonnegative nn = Except.ok m ∨
      from_elem e = Except.ok m) :
    MODULUS_MIN_LIMBS ≤ m.limbs.length ∧ m.limbs.length ≤ MODULUS_MAX_LIMBS ∧
    limbsValue m.limbs % 2 = 1 ∧ 3 ≤ limbsValue m.limbs := by
  rcases h with h | h | h
  · rw [from_be_bytes] at h
    obtain ⟨h0, h1, h2, h3, h4, -⟩ := from_boxed_limbs_ok _ _ h
    rw [h0]
    exact ⟨h1, h2, h3, h4⟩
  · rw [from_nonnegative] at h
    obtain ⟨h0, h1, h2, h3, h4, -⟩ := from_boxed_limbs_ok _ _ h
    rw [h0]
    exact ⟨h1, h2, h3, h4⟩
  · rw [from_elem] at h
    obtain ⟨h0, h1, h2, h3, h4, -⟩ := from_boxed_limbs_ok _ _ h
    rw [h0]
    exact ⟨h1, h2, h3, h4⟩

/-- Witness for C1 at the 32-byte input `0xFF…FF`, i.e. the modulus
`2^256 - 1`. -/
theorem C1_constructed_modulus_invariants_witness :
    MODULUS_MIN_LIMBS ≤ (List.replicate 4 (2 ^ 64 - 1)).length ∧
    (List.replicate 4 (2 ^ 64 - 1)).length ≤ MODULUS_MAX_LIMBS ∧
    limbsValue (List.replicate 4 (2 ^ 64 - 1)) % 2 = 1 ∧
    3 ≤ limbsValue (List.replicate 4 (2 ^ 64 - 1)) :=
  C1_constructed_modulus_invariants (List.replicate 32 255) ⟨[]⟩ []
    ⟨List.replicate 4 (2 ^ 64 - 1), 1, [1, 0, 0, 0], 256⟩
    (Or.inl (by decide))

/-- Claim C2: for every successfully constructed modulus of value `n`,
`(n mod r) * N0 ≡ -1 (mod r)` with `r = 2^(N0::LIMBS_USED * LIMB_BITS)
= 2^64`, where `n mod r` is exactly the lowest limb of `n`.  All three
entry points factor through `from_boxed_limbs`. -/
theorem C2_n0_correct (n : List Nat) (m : OwnedModulusWithOne)
    (hwf : ∀ l ∈ n, l < 2 ^ 64) (h : from_boxed_limbs n = Except.ok m) :
    limbsValue m.limbs % 2 ^ 64 = m.limbs.headD 0 ∧
    (limbsValue m.limbs % 2 ^ 64 * m.n0 + 1) % 2 ^ 64 = 0 := by
  obtain ⟨h0, h1, h2, h3, h4, h5, -⟩ := from_boxed_limbs_ok n m h
  rw [h0]
  cases n with
  | nil => exact absurd h1 (by simp [ MODULUS_MIN_LIMBS])
  | cons a t =>
    have ha : a < 2 ^ 64 := hwf a (by simp)
    have hhead : limbsValue (a :: t) % 2 ^ 64 = a := by
      rw [limbsValue, Nat.add_mul_mod_self_left, Nat.mod_eq_of_lt ha]
    refine ⟨by simpa using hhead, ?_⟩
    rw [hhead, h5]
    have hodd : a % 2 = 1 := by
      rw [limbsValue] at h3
      have h2p : (2 : Nat) ^ 64 % 2 = 0 := by norm_num
      omega
    exact bn_neg_inv_mod_r_u64_correct a hodd

/-- Witness for C2 at the 4-limb modulus `2^256 - 1`. -/
theorem C2_n0_correct_witness :
    limbsValue (OwnedModulusWithOne.mk (List.replicate 4 (2 ^ 64 - 1)) 1
        [1, 0, 0, 0] 256).limbs % 2 ^ 64 =
      (OwnedModulusWithOne.mk (List.replicate 4 (2 ^ 64 - 1)) 1
        [1, 0, 0, 0] 256).limbs.headD 0 ∧
    (limbsValue (OwnedModulusWithOne.mk (List.replicate 4 (2 ^ 64 - 1)) 1
        [1, 0, 0, 0] 256).limbs % 2 ^ 64 *
      (OwnedModulusWithOne.mk (List.replicate 4 (2 ^ 64 - 1)) 1
        [1, 0, 0, 0] 256).n0 + 1) % 2 ^ 64 = 0 :=
  C2_n0_correct (List.replicate 4 (2 ^ 64 - 1))
    ⟨List.replicate 4 (2 ^ 64 - 1), 1, [1, 0, 0, 0], 256⟩
    (by decide) (by decide)

/-- Claim C3: for every successfully constructed modulus of value `n`,
the cached `oneRR` value satisfies `RR = R^2 mod n` with
`R = 2^(LIMB_BITS * limb count)` the Montgomery radix, i.e. it is the
Montgomery encoding of 1 in doubly-encoded form; and converting it back
to unencoded form through the external Montgomery multiply contract
(i.e. the reduced `x < n` with `x * R^2 ≡ RR (mod n)`) yields the
integer 1.  All three entry points factor through `from_boxed_limbs`. -/
theorem C3_oneRR_correct (n : List Nat) (m : OwnedModulusWithOne)
    (hwf : ∀ l ∈ n, l < 2 ^ 64) (h : from_boxed_limbs n = Except.ok m) :
    limbsValue m.oneRR =
      (2 ^ (LIMB_BITS * m.limbs.length)) ^ 2 % limbsValue m.limbs ∧
    ∀ x, x < limbsValue m.limbs →
      x * (2 ^ (LIMB_BITS * m.limbs.length)) ^ 2 % limbsValue m.limbs =
        limbsValue m.oneRR % limbsValue m.limbs →
      x = 1 := by
  obtain ⟨h0, h1, h2, h3, h4, h5, h6, h7⟩ := from_boxed_limbs_ok n m h
  rw [h0, h6]
  have hpos : 0 < limbsValue n := by omega
  have hle : limbsValue n ≤ 2 ^ (64 * n.length) :=
    le_of_lt (limbsValue_lt n hwf)
  have hval := One_newRR_value n.length (limbsValue n) hpos hle
  have hLB : LIMB_BITS * n.length = 64 * n.length := rfl
  rw [hval, hLB]
  refine ⟨rfl, ?_⟩
  intro x hx hcong
  rw [Nat.mod_mod_of_dvd _ dvd_rfl] at hcong
  have hcop2 : Nat.Coprime (limbsValue n) 2 :=
    Nat.coprime_two_right.mpr (Nat.odd_iff.mpr h3)
  have hcop : Nat.Coprime (limbsValue n) ((2 ^ (64 * n.length)) ^ 2) :=
    (hcop2.pow_right _).pow_right _
  have hme : x * (2 ^ (64 * n.length)) ^ 2 ≡
      1 * (2 ^ (64 * n.length)) ^ 2 [MOD limbsValue n] := by
    show x * (2 ^ (64 * n.length)) ^ 2 % limbsValue n =
      1 * (2 ^ (64 * n.length)) ^ 2 % limbsValue n
    rw [one_mul]
    exact hcong
  have hx1 : x ≡ 1 [MOD limbsValue n] :=
    Nat.ModEq.cancel_right_of_coprime hcop hme
  have := hx1
  rw [Nat.ModEq] at this
  rw [Nat.mod_eq_of_lt hx, Nat.mod_eq_of_lt (by omega : 1 < limbsValue n)]
    at this
  exact this

/-- Witness for C3 at the 4-limb modulus `2^256 - 1`. -/
theorem C3_oneRR_correct_witness :
    limbsValue (OwnedModulusWithOne.mk (List.replicate 4 (2 ^ 64 - 1)) 1
        [1, 0, 0, 0] 256).oneRR =
      (2 ^ (LIMB_BITS * (OwnedModulusWithOne.mk (List.replicate 4 (2 ^ 64 - 1)) 1
        [1, 0, 0, 0] 256).limbs.length)) ^ 2 %
        limbsValue (OwnedModulusWithOne.mk (List.replicate 4 (2 ^ 64 - 1)) 1
          [1, 0, 0, 0] 256).limbs ∧
    ∀ x, x < limbsValue (OwnedModulusWithOne.mk (List.replicate 4 (2 ^ 64 - 1)) 1
        [1, 0, 0, 0] 256).limbs →
      x * (2 ^ (LIMB_BITS * (OwnedModulusWithOne.mk (List.replicate 4 (2 ^ 64 - 1)) 1
        [1, 0, 0, 0] 256).limbs.length)) ^ 2 %
        limbsValue (OwnedModulusWithOne.mk (List.replicate 4 (2 ^ 64 - 1)) 1
          [1, 0, 0, 0] 256).limbs =
        limbsValue (OwnedModulusWithOne.mk (List.replicate 4 (2 ^ 64 - 1)) 1
          [1, 0, 0, 0] 256).oneRR %
        limbsValue (OwnedModulusWithOne.mk (List.replicate 4 (2 ^ 64 - 1)) 1
          [1, 0, 0, 0] 256).limbs →
      x = 1 :=
  C3_oneRR_correct (List.replicate 4 (2 ^ 64 - 1))
    (OwnedModulusWithOne.mk (List.replicate 4 (2 ^ 64 - 1)) 1 [1, 0, 0, 0] 256)
    (by decide) (by decide)

/-- Counterexample to claim C4 as stated: the byte string `[2]` encodes
an even integer, yet construction fails with `unexpected_error` (the
minimum-limb-count check fires before the parity check), not
`invalid_component`. -/
theorem C4_counterexample :
    beBytesToNat [2] % 2 = 0 ∧
    from_be_bytes [2] ≠ Except.error KeyRejected.invalid_component ∧
    from_be_bytes [2] = Except.error KeyRejected.unexpected_error := by
  refine ⟨by decide, by decide, by decide⟩

/-- Claim C4 (amended): every byte string encoding an even integer is
rejected; the returned error is `InvalidComponent` whenever the limb
count lies within `[MODULUS_MIN_LIMBS, MODULUS_MAX_LIMBS]` (otherwise
the size checks fire first and return their own errors). -/
theorem C4_even_rejected (b : List Nat) (h : beBytesToNat b % 2 = 0) :
    (∃ e, from_be_bytes b = Except.error e) ∧
    (MODULUS_MIN_LIMBS ≤ ((stripLeadingZeros b).length + 7) / 8 →
      ((stripLeadingZeros b).length + 7) / 8 ≤ MODULUS_MAX_LIMBS →
      from_be_bytes b = Except.error KeyRejected.invalid_component) := by
  have hstripv : beBytesToNat (stripLeadingZeros b) % 2 = 0 := by
    rw [beBytesToNat_strip]; exact h
  have heven : ∀ k, 0 < k →
      limbsValue (natToLimbsLE k (beBytesToNat (stripLeadingZeros b))) % 2 = 0 := by
    intro k hk
    rw [limbsValue_mod_two k _ hk]
    exact hstripv
  have hmin4 : MODULUS_MIN_LIMBS = 4 := by decide
  constructor
  · rw [from_be_bytes, positive_minimal_width_from_be_bytes]
    by_cases h1 : MODULUS_MAX_LIMBS < ((stripLeadingZeros b).length + 7) / 8
    · exact ⟨_, from_boxed_limbs_too_large _ (by rw [natToLimbsLE_length]; omega)⟩
    · by_cases h2 : ((stripLeadingZeros b).length + 7) / 8 < MODULUS_MIN_LIMBS
      · exact ⟨_, from_boxed_limbs_too_small _ (by rw [natToLimbsLE_length]; omega)
          (by rw [natToLimbsLE_length]; omega)⟩
      · exact ⟨_, from_boxed_limbs_even _ (by rw [natToLimbsLE_length]; omega)
          (by rw [natToLimbsLE_length]; omega) (heven _ (by omega))⟩
  · intro h1 h2
    rw [from_be_bytes, positive_minimal_width_from_be_bytes]
    exact from_boxed_limbs_even _ (by rw [natToLimbsLE_length]; omega)
      (by rw [natToLimbsLE_length]; omega) (heven _ (by omega))

/-- Witness for C4 (amended) at the 32-byte even input `0x0202…02`. -/
theorem C4_even_rejected_witness :
    (∃ e, from_be_bytes (List.replicate 32 2) = Except.error e) ∧
    (MODULUS_MIN_LIMBS ≤
        ((stripLeadingZeros (List.replicate 32 2)).length + 7) / 8 →
      ((stripLeadingZeros (List.replicate 32 2)).length + 7) / 8 ≤
        MODULUS_MAX_LIMBS →
      from_be_bytes (List.replicate 32 2) =
        Except.error KeyRejected.invalid_component) :=
  C4_even_rejected (List.replicate 32 2) (by decide)

theorem strip_length_le_one (b : List Nat) (h : beBytesToNat b ≤ 2) :
    (stripLeadingZeros b).length ≤ 1 := by
  cases hs : stripLeadingZeros b with
  | nil => simp
  | cons a t =>
    cases t with
    | nil => simp
    | cons c u =>
      exfalso
      have ha := stripLeadingZeros_head_ne b a (c :: u) hs
      have hge := beBytesToNat_ge a (c :: u) ha
      have hv : beBytesToNat (a :: c :: u) = beBytesToNat b := by
        rw [← hs, beBytesToNat_strip]
      have hpow : 256 ≤ (256 : Nat) ^ (c :: u).length := by
        calc (256 : Nat) = 256 ^ 1 := by norm_num
          _ ≤ 256 ^ (c :: u).length :=
            Nat.pow_le_pow_right (by norm_num) (by simp)
      omega

/-- Claim C5: constructing from any big-endian byte encoding of 0, 1 or
2 fails, and the returned error is `UnexpectedError` (the minimum-limb
check fires: such values strip to at most one byte, hence at most one
limb). -/
theorem C5_magnitude_rejected (b : List Nat) (h : beBytesToNat b ≤ 2) :
    from_be_bytes b = Except.error KeyRejected.unexpected_error := by
  have hl := strip_length_le_one b h
  have hmax : MODULUS_MAX_LIMBS = 128 := by decide
  have hmin : MODULUS_MIN_LIMBS = 4 := by decide
  rw [from_be_bytes, positive_minimal_width_from_be_bytes]
  exact from_boxed_limbs_too_small _ (by rw [natToLimbsLE_length]; omega)
    (by rw [natToLimbsLE_length]; omega)

/-- Witness for C5 at the encoding `[1]` of the integer 1. -/
theorem C5_magnitude_rejected_witness :
    from_be_bytes [1] = Except.error KeyRejected.unexpected_error :=
  C5_magnitude_rejected [1] (by decide)

theorem stripLeadingZeros_replicate_zero (k : Nat) :
    stripLeadingZeros (List.replicate k 0) = [] := by
  have h := stripLeadingZeros_replicate_append k ([] : List Nat)
  simpa using h

theorem beBytesToNat_replicate_zero (k : Nat) :
    beBytesToNat (List.replicate k 0) = 0 := by
  rw [← beBytesToNat_strip, stripLeadingZeros_replicate_zero]
  rfl

/-- Counterexample to claim C6 as stated: the 1024-byte string
`0x01 00 … 00` occupies exactly `MODULUS_MAX_LIMBS` limbs, yet
construction fails (the value is even), refuting "for every byte string
occupying exactly `MODULUS_MAX_LIMBS` limbs, construction succeeds". -/
theorem C6_counterexample :
    ((stripLeadingZeros ((1 : Nat) :: List.replicate 1023 0)).length + 7) / 8 =
      MODULUS_MAX_LIMBS ∧
    from_be_bytes ((1 : Nat) :: List.replicate 1023 0) =
      Except.error KeyRejected.invalid_component := by
  have hstrip : stripLeadingZeros ((1 : Nat) :: List.replicate 1023 0) =
      (1 : Nat) :: List.replicate 1023 0 :=
    stripLeadingZeros_of_head_ne 1 (List.replicate 1023 0) one_ne_zero
  have hlen : ((1 : Nat) :: List.replicate 1023 0).length = 1024 := by simp
  have hval : beBytesToNat ((1 : Nat) :: List.replicate 1023 0) = 256 ^ 1023 := by
    rw [beBytesToNat_cons, beBytesToNat_replicate_zero, List.length_replicate]
    ring
  constructor
  · rw [hstrip, hlen]
    decide
  · rw [from_be_bytes, positive_minimal_width_from_be_bytes, hstrip, hlen, hval]
    apply from_boxed_limbs_even
    · rw [natToLimbsLE_length]; decide
    · rw [natToLimbsLE_length]; decide
    · rw [limbsValue_mod_two _ _ (by norm_num)]
      have h2 : (2 : Nat) ∣ 256 ^ 1023 := dvd_pow (by norm_num) (by norm_num)
      omega

/-- Claim C6 (amended): a byte string whose minimal-width limb
representation needs more than `MODULUS_MAX_LIMBS` limbs is rejected
with `TooLarge`; a byte string occupying exactly `MODULUS_MAX_LIMBS`
limbs passes the size checks and construction succeeds whenever the
encoded value is odd (at that size the value is automatically `≥ 3`). -/
theorem C6_size_behavior (b c : List Nat) (hc : ∀ x ∈ c, x < 256) :
    (MODULUS_MAX_LIMBS < ((stripLeadingZeros b).length + 7) / 8 →
      from_be_bytes b = Except.error KeyRejected.too_large) ∧
    (((stripLeadingZeros c).length + 7) / 8 = MODULUS_MAX_LIMBS →
      beBytesToNat c % 2 = 1 →
      ∃ m, from_be_bytes c = Except.ok m) := by
  have hmax : MODULUS_MAX_LIMBS = 128 := by decide
  have hmin : MODULUS_MIN_LIMBS = 4 := by decide
  constructor
  · intro h1
    rw [from_be_bytes, positive_minimal_width_from_be_bytes]
    exact from_boxed_limbs_too_large _ (by rw [natToLimbsLE_length]; omega)
  · intro h1 h2
    rw [hmax] at h1
    rw [from_be_bytes, positive_minimal_width_from_be_bytes]
    have hcs : ∀ x ∈ stripLeadingZeros c, x < 256 :=
      fun x hx => hc x ((List.dropWhile_sublist _).subset hx)
    have hlenlo : 1017 ≤ (stripLeadingZeros c).length := by omega
    have hlenhi : (stripLeadingZeros c).length ≤ 1024 := by omega
    obtain ⟨a, t, hst⟩ : ∃ a t, stripLeadingZeros c = a :: t := by
      cases hsc : stripLeadingZeros c with
      | nil => rw [hsc] at hlenlo; simp at hlenlo
      | cons a t => exact ⟨a, t, rfl⟩
    have ha : a ≠ 0 := stripLeadingZeros_head_ne c a t hst
    have hge : 256 ≤ beBytesToNat (stripLeadingZeros c) := by
      rw [hst]
      have htlen : 1 ≤ t.length := by
        have := congrArg List.length hst
        simp only [List.length_cons] at this
        omega
      have h256 : (256 : Nat) ^ 1 ≤ 256 ^ t.length :=
        Nat.pow_le_pow_right (by norm_num) htlen
      have hgea := beBytesToNat_ge a t ha
      rw [pow_one] at h256
      omega
    have hvlt : beBytesToNat (stripLeadingZeros c) <
        2 ^ (64 * (((stripLeadingZeros c).length + 7) / 8)) := by
      calc beBytesToNat (stripLeadingZeros c)
          < 256 ^ (stripLeadingZeros c).length := beBytesToNat_lt _ hcs
        _ = 2 ^ (8 * (stripLeadingZeros c).length) := by
            rw [show (256 : Nat) = 2 ^ 8 by norm_num, ← pow_mul]
        _ ≤ 2 ^ (64 * (((stripLeadingZeros c).length + 7) / 8)) :=
            Nat.pow_le_pow_right (by norm_num) (by omega)
    have hval : limbsValue (natToLimbsLE
        (((stripLeadingZeros c).length + 7) / 8)
        (beBytesToNat (stripLeadingZeros c))) =
        beBytesToNat (stripLeadingZeros c) := by
      rw [limbsValue_natToLimbsLE, Nat.mod_eq_of_lt hvlt]
    refine ⟨_, from_boxed_limbs_ok_of _ ?_ ?_ ?_ ?_⟩
    · rw [natToLimbsLE_length]; omega
    · rw [natToLimbsLE_length]; omega
    · rw [hval, beBytesToNat_strip]; exact h2
    · rw [hval]; omega

/-- Witness for C6 (amended): a 1025-byte input is rejected as too
large; the 1024-byte odd input `0x01 00 … 00 03` (exactly
`MODULUS_MAX_LIMBS` limbs) is accepted. -/
theorem C6_size_behavior_witness :
    from_be_bytes ((1 : Nat) :: List.replicate 1024 0) =
      Except.error KeyRejected.too_large ∧
    ∃ m, from_be_bytes ((1 : Nat) :: (List.replicate 1022 0 ++ [3])) =
      Except.ok m := by
  have hc : ∀ x ∈ (1 : Nat) :: (List.replicate 1022 0 ++ [3]), x < 256 := by
    intro x hx
    rcases List.mem_cons.mp hx with h | h
    · omega
    · rcases List.mem_append.mp h with h2 | h2
      · rw [List.eq_of_mem_replicate h2]; omega
      · rw [List.mem_singleton.mp h2]; omega
  refine ⟨(C6_size_behavior ((1 : Nat) :: List.replicate 1024 0)
      ((1 : Nat) :: (List.replicate 1022 0 ++ [3])) hc).1 ?_,
    (C6_size_behavior ((1 : Nat) :: List.replicate 1024 0)
      ((1 : Nat) :: (List.replicate 1022 0 ++ [3])) hc).2 ?_ ?_⟩
  · rw [stripLeadingZeros_of_head_ne 1 (List.replicate 1024 0) one_ne_zero]
    have hl : ((1 : Nat) :: List.replicate 1024 0).length = 1025 := by simp
    rw [hl]
    decide
  · rw [stripLeadingZeros_of_head_ne 1 (List.replicate 1022 0 ++ [3])
      one_ne_zero]
    have hl : ((1 : Nat) :: (List.replicate 1022 0 ++ [3])).length = 1024 := by
      simp
    rw [hl]
    decide
  · have h2 : beBytesToNat (List.replicate 1022 0 ++ [3]) = 3 := by
      rw [← beBytesToNat_strip, stripLeadingZeros_replicate_append,
        stripLeadingZeros_of_head_ne 3 [] (by norm_num)]
      decide
    have h3 : (List.replicate 1022 0 ++ [3]).length = 1023 := by simp
    rw [beBytesToNat_cons, h2, h3]
    have h4 : (2 : Nat) ∣ 256 ^ 1023 := dvd_pow (by norm_num) (by norm_num)
    omega

/-! ## Round-trip helpers -/

theorem mem_stripLeadingZeros (b : List Nat) (x : Nat)
    (hx : x ∈ stripLeadingZeros b) : x ∈ b :=
  (List.dropWhile_sublist _).subset hx

theorem stripLeadingZeros_idem (b : List Nat) :
    stripLeadingZeros (stripLeadingZeros b) = stripLeadingZeros b := by
  cases hs : stripLeadingZeros b with
  | nil => rfl
  | cons a t =>
    exact stripLeadingZeros_of_head_ne a t (stripLeadingZeros_head_ne b a t hs)

theorem roundtrip_core (s : List Nat) (m : OwnedModulusWithOne)
    (hsb : ∀ x ∈ s, x < 256)
    (hstrip : stripLeadingZeros s = s)
    (h : from_boxed_limbs (natToLimbsLE ((s.length + 7) / 8) (beBytesToNat s)) =
      Except.ok m) :
    be_bytes m = s ∧ limbsValue m.limbs = beBytesToNat s ∧
    s.head? ≠ some 0 := by
  obtain ⟨h0, h1, h2, h3, h4, -⟩ := from_boxed_limbs_ok _ _ h
  rw [natToLimbsLE_length] at h1 h2
  have hmin4 : MODULUS_MIN_LIMBS = 4 := by decide
  have hslen : 25 ≤ s.length := by omega
  obtain ⟨a, t, hst⟩ : ∃ a t, s = a :: t := by
    cases hsc : s with
    | nil => rw [hsc] at hslen; simp at hslen
    | cons a t => exact ⟨a, t, rfl⟩
  have ha : a ≠ 0 := by
    apply stripLeadingZeros_head_ne s a t
    rw [hstrip]
    exact hst
  have hvlt : beBytesToNat s < 2 ^ (64 * ((s.length + 7) / 8)) := by
    calc beBytesToNat s
        < 256 ^ s.length := beBytesToNat_lt s hsb
      _ = 2 ^ (8 * s.length) := by
          rw [show (256 : Nat) = 2 ^ 8 by norm_num, ← pow_mul]
      _ ≤ 2 ^ (64 * ((s.length + 7) / 8)) :=
          Nat.pow_le_pow_right (by norm_num) (by omega)
  have hval : limbsValue (natToLimbsLE ((s.length + 7) / 8) (beBytesToNat s)) =
      beBytesToNat s := by
    rw [limbsValue_natToLimbsLE, Nat.mod_eq_of_lt hvlt]
  refine ⟨?_, ?_, ?_⟩
  · rw [be_bytes, unstripped_be_bytes, h0, natToLimbsLE_length, hval]
    have hsplit : (s.length + 7) / 8 * 8 =
        s.length + ((s.length + 7) / 8 * 8 - s.length) := by omega
    rw [hsplit, natToBEBytes_encode s _ hsb,
      stripLeadingZeros_replicate_append, hstrip]
  · rw [h0, hval]
  · rw [hst]
    simp [ha]

/-- Claim C7: for every modulus successfully constructed from big-endian
bytes, `be_bytes` serializes it with no leading zero byte, re-decoding
that byte sequence succeeds and yields the very same modulus, and the
byte sequence decodes to the represented integer. -/
theorem C7_roundtrip (b : List Nat) (m : OwnedModulusWithOne)
    (hb : ∀ x ∈ b, x < 256) (h : from_be_bytes b = Except.ok m) :
    (be_bytes m).head? ≠ some 0 ∧
    from_be_bytes (be_bytes m) = Except.ok m ∧
    beBytesToNat (be_bytes m) = limbsValue m.limbs := by
  rw [from_be_bytes, positive_minimal_width_from_be_bytes] at h
  have hsb : ∀ x ∈ stripLeadingZeros b, x < 256 :=
    fun x hx => hb x (mem_stripLeadingZeros b x hx)
  obtain ⟨hbe, hval, hhead⟩ :=
    roundtrip_core (stripLeadingZeros b) m hsb (stripLeadingZeros_idem b) h
  refine ⟨?_, ?_, ?_⟩
  · rw [hbe]; exact hhead
  · rw [hbe, from_be_bytes, positive_minimal_width_from_be_bytes,
      stripLeadingZeros_idem]
    exact h
  · rw [hbe, hval]

/-- Witness for C7 at the 32-byte input `0xFF…FF`. -/
theorem C7_roundtrip_witness :
    (be_bytes (OwnedModulusWithOne.mk (List.replicate 4 (2 ^ 64 - 1)) 1
        [1, 0, 0, 0] 256)).head? ≠ some 0 ∧
    from_be_bytes (be_bytes (OwnedModulusWithOne.mk
        (List.replicate 4 (2 ^ 64 - 1)) 1 [1, 0, 0, 0] 256)) =
      Except.ok (OwnedModulusWithOne.mk (List.replicate 4 (2 ^ 64 - 1)) 1
        [1, 0, 0, 0] 256) ∧
    beBytesToNat (be_bytes (OwnedModulusWithOne.mk
        (List.replicate 4 (2 ^ 64 - 1)) 1 [1, 0, 0, 0] 256)) =
      limbsValue (OwnedModulusWithOne.mk (List.replicate 4 (2 ^ 64 - 1)) 1
        [1, 0, 0, 0] 256).limbs :=
  C7_roundtrip (List.replicate 32 255)
    (OwnedModulusWithOne.mk (List.replicate 4 (2 ^ 64 - 1)) 1 [1, 0, 0, 0] 256)
    (by intro x hx; rw [List.eq_of_mem_replicate hx]; norm_num)
    (by decide)

/-- Claim C8: for a modulus `self` embedded into a strictly larger
modulus's ring (the `SmallerModulus` type bound guarantees
`self.limbs.length ≤ l.limbs.length`), `to_elem` produces a limb array
of the larger width whose low limbs are `self`'s limbs, whose remaining
limbs are zero, and which represents the same integer. -/
theorem C8_to_elem (m : OwnedModulusWithOne) (l : Modulus)
    (h : m.limbs.length ≤ l.limbs.length) :
    (to_elem m l).length = l.limbs.length ∧
    (to_elem m l).take m.limbs.length = m.limbs ∧
    (to_elem m l).drop m.limbs.length =
      List.replicate (l.limbs.length - m.limbs.length) 0 ∧
    limbsValue (to_elem m l) = limbsValue m.limbs := by
  refine ⟨?_, ?_, ?_, ?_⟩
  · rw [to_elem, List.length_append, List.length_replicate]; omega
  · rw [to_elem, List.take_left]
  · rw [to_elem, List.drop_left]
  · exact limbsValue_append_zeros _ _

/-- Witness for C8 at a 4-limb modulus inside a 6-limb ring. -/
theorem C8_to_elem_witness :
    (to_elem (OwnedModulusWithOne.mk [5, 6, 7, 8] 0 [] 0)
        (Modulus.mk [1, 2, 3, 4, 5, 6] 0 0)).length =
      (Modulus.mk [1, 2, 3, 4, 5, 6] 0 0).limbs.length ∧
    (to_elem (OwnedModulusWithOne.mk [5, 6, 7, 8] 0 [] 0)
        (Modulus.mk [1, 2, 3, 4, 5, 6] 0 0)).take
        (OwnedModulusWithOne.mk [5, 6, 7, 8] 0 [] 0).limbs.length =
      (OwnedModulusWithOne.mk [5, 6, 7, 8] 0 [] 0).limbs ∧
    (to_elem (OwnedModulusWithOne.mk [5, 6, 7, 8] 0 [] 0)
        (Modulus.mk [1, 2, 3, 4, 5, 6] 0 0)).drop
        (OwnedModulusWithOne.mk [5, 6, 7, 8] 0 [] 0).limbs.length =
      List.replicate ((Modulus.mk [1, 2, 3, 4, 5, 6] 0 0).limbs.length -
        (OwnedModulusWithOne.mk [5, 6, 7, 8] 0 [] 0).limbs.length) 0 ∧
    limbsValue (to_elem (OwnedModulusWithOne.mk [5, 6, 7, 8] 0 [] 0)
        (Modulus.mk [1, 2, 3, 4, 5, 6] 0 0)) =
      limbsValue (OwnedModulusWithOne.mk [5, 6, 7, 8] 0 [] 0).limbs :=
  C8_to_elem (OwnedModulusWithOne.mk [5, 6, 7, 8] 0 [] 0)
    (Modulus.mk [1, 2, 3, 4, 5, 6] 0 0) (by decide)

/-- Claim C10: `clone` (available only for `PublicModulus` tags, a
compile-time bound) returns a modulus observationally equal to the
original: equal limbs, `N0`, `oneRR`, bit length, and hence equal
`be_bytes` serialization. -/
theorem C10_clone_eq (m : OwnedModulusWithOne) :
    (clone m).limbs = m.limbs ∧ (clone m).n0 = m.n0 ∧
    (clone m).oneRR = m.oneRR ∧ (clone m).len_bits = m.len_bits ∧
    be_bytes (clone m) = be_bytes m :=
  ⟨rfl, rfl, rfl, rfl, rfl⟩

end BigintModulus
